import Mathlib

/-!
Verification of the introduction-inference core of `matUtils introduce`
(`src/matUtils/introduce.cpp`).

The development shallowly embeds the code paths that the verified
properties concern:

* a mutation-annotated tree (`MTree`): each node has a string identifier,
  the number of mutations on its incoming edge (`muts`, the node's edge
  length), and an ordered list of children.  Clade annotations and the
  textual rendering of mutations play no role in any verified property
  and are omitted;
* the per-region assignment engine `get_assignments` (rules 1-4);
* the association-index computation `get_association_index` together
  with its permutation-mode acceptance test;
* the per-sample introduction walker of `find_introductions` and the
  header-selection logic of the report builder.

Machine floats of the source are modelled by exact rationals (`ℚ`) and
machine size_t counters by `ℕ`; where the source performs an integer
division (`size_t / size_t`) the embedding performs the corresponding
truncating `ℕ` division.  Node identifiers are assumed unique (an
invariant of mutation-annotated trees); theorems that depend on it take
an explicit `uniqueIds` hypothesis.
-/

/-- A node of a mutation-annotated tree: identifier, number of mutations
on the incoming edge (`node->mutations.size()` in the source), ordered
children.  A leaf is a node with no children. -/
inductive MTree where
  | node (nid : String) (muts : Nat) (children : List MTree)

/-- The node's string identifier (`node->identifier`). -/
def MTree.nid : MTree → String
  | .node i _ _ => i

/-- The node's mutation count (`node->mutations.size()`), i.e. the length
of its incoming edge. -/
def MTree.muts : MTree → Nat
  | .node _ m _ => m

/-- The node's ordered child list (`node->children`). -/
def MTree.children : MTree → List MTree
  | .node _ _ ch => ch

/-- `node->is_leaf()`: a node with no children. -/
def isLeaf (t : MTree) : Bool :=
  t.children.isEmpty

mutual

/-- `T->depth_first_expansion(n)`: the nodes of the subtree rooted at the
given node, in preorder (a node precedes its descendants, children in
order). -/
def dfs : MTree → List MTree
  | .node i m ch => .node i m ch :: dfsList ch

/-- Depth-first expansion of a forest, in order. -/
def dfsList : List MTree → List MTree
  | [] => []
  | t :: ts => dfs t ++ dfsList ts

end

/-- `T->get_leaves_ids(n->identifier)`: identifiers of the leaves of the
subtree rooted at `n`, in depth-first order. -/
def leavesIds (t : MTree) : List String :=
  ((dfs t).filter (fun d => isLeaf d)).map MTree.nid

/-- The identifiers of all nodes of the tree. -/
def allIds (t : MTree) : List String :=
  (dfs t).map MTree.nid

/-- Identifier uniqueness, an invariant of loaded mutation-annotated
trees (`all_nodes` is keyed by identifier). -/
def uniqueIds (t : MTree) : Prop :=
  (allIds t).Nodup

mutual

/-- For every leaf of the subtree, in depth-first order, the total
mutation count accumulated by `T->rsearch(leaf, true)` from the leaf up
to and including the subtree root itself — exactly the quantity the
rule-4 loop of `get_assignments` stores in `min_to_in` / `min_to_out`
(the loop adds `a->mutations.size()` for every ancestor `a` and only
then tests `a->identifier == n->identifier`, so the subtree root's own
mutation count is included). -/
def leafDists : MTree → List (String × Nat)
  | .node i m ch =>
    if ch.isEmpty then [(i, m)]
    else (leafDistsList ch).map (fun p => (p.1, p.2 + m))

/-- `leafDists` over a forest, concatenated in order. -/
def leafDistsList : List MTree → List (String × Nat)
  | [] => []
  | t :: ts => leafDists t ++ leafDistsList ts

end

/-- The rule-4 scanning loop of `get_assignments` (lines 298-334 of the
source): walk the depth-first leaves, and while `min_to_in` (`acc.1`) is
still 0, store the chain distance of an IN leaf there; symmetrically for
`min_to_out` (`acc.2`); stop as soon as both are positive. -/
def scanMins (sset : List String) : List (String × Nat) → Nat × Nat → Nat × Nat
  | [], acc => acc
  | p :: rest, acc =>
    if 0 < acc.1 ∧ 0 < acc.2 then acc
    else if p.1 ∈ sset ∧ acc.1 = 0 then scanMins sset rest (p.2, acc.2)
    else if p.1 ∉ sset ∧ acc.2 = 0 then scanMins sset rest (acc.1, p.2)
    else scanMins sset rest acc

/-- The confidence `get_assignments` computes for one node (rules 1-4 of
the source, lines 267-364).  `sset` is the region's sample set.  Rule 4
uses the scan result: value 1 when `min_to_in = 0`, 0 when
`min_to_out = 0`, otherwise `1 / (1 + (mi/iL)/(mo/oL))` in float
arithmetic, modelled exactly over `ℚ`. -/
def nodeAssign (sset : List String) (n : MTree) : ℚ :=
  if isLeaf n then (if n.nid ∈ sset then 1 else 0)
  else
    let lvs := leavesIds n
    let in_leaves := (lvs.filter (fun l => l ∈ sset)).dedup
    let out_leaves := (lvs.filter (fun l => l ∉ sset)).dedup
    if out_leaves.length = 0 then 1
    else if in_leaves.length = 0 then 0
    else
      let mm := scanMins sset (leafDists n) (0, 0)
      if mm.1 = 0 then 1
      else if mm.2 = 0 then 0
      else
        let vor : ℚ := (mm.2 : ℚ) / (out_leaves.length : ℚ)
        let vir : ℚ := (mm.1 : ℚ) / (in_leaves.length : ℚ)
        let r : ℚ := vir / vor
        1 / (1 + r)

/-- `get_assignments(T, sample_set)`: the per-region assignment map,
keyed by node identifier, one entry per node of the depth-first
expansion.  (The source stores the entries in a `std::map`; with unique
identifiers the association list in depth-first order carries the same
information.) -/
def get_assignments (T : MTree) (sset : List String) : List (String × ℚ) :=
  (dfs T).map (fun n => (n.nid, nodeAssign sset n))

/-- Lookup in an assignment map (`assignments.find(id)`). -/
def lookupA (A : List (String × ℚ)) (i : String) : Option ℚ :=
  (A.find? (fun p => p.1 = i)).map (fun p => p.2)

/-- Lookup that, like the source's unchecked `->second` dereference,
is only meaningful on identifiers present in the map; absent
identifiers default to 0. -/
def lookupA0 (A : List (String × ℚ)) (i : String) : ℚ :=
  (lookupA A i).getD 0

/-- The acceptance test of permutation mode (line 142-143 of the
source): a uniform draw `rand()%leaf_count ∈ [0, leaf_count)` is
compared with `static_cast<float>(sample_count)` using `<=`.  For the
counter magnitudes at which the float cast is exact this is the integer
comparison `draw ≤ sample_count`. -/
def permuteAccept (sample_count : Nat) (draw : Nat) : Bool :=
  draw ≤ sample_count

/-- The four header lines pushed first by `find_introductions`
(lines 425-439 of the source), selected by the number of regions and the
add-info flag. -/
def introductionHeader (nregions : Nat) (add_info : Bool) : String :=
  if nregions = 1 then
    if add_info then
      "sample\tintroduction_node\tintro_confidence\tparent_confidence\tdistance\tclades\tmutation_path\tmonophyl_size\tassoc_index\n"
    else
      "sample\tintroduction_node\tintro_confidence\tparent_confidence\tdistance\tclades\tmutation_path\n"
  else
    if add_info then
      "sample\tintroduction_node\tintro_confidence\tparent_confidence\tdistance\tregion\torigins\torigins_confidence\tclades\tmutation_path\tmonophyl_size\tassoc_index\n"
    else
      "sample\tintroduction_node\tintro_confidence\tparent_confidence\tdistance\tregion\torigins\torigins_confidence\tclades\tmutation_path\n"

mutual

/-- The root-down path from the tree root to the node carrying the
target identifier: `some [root, ..., target]` when the identifier is in
the tree, `none` otherwise.  Children are tried in order; with unique
identifiers at most one succeeds. -/
def findPath (target : String) : MTree → Option (List MTree)
  | .node i m ch =>
    if i = target then some [.node i m ch]
    else (findPathList target ch).map (fun p => .node i m ch :: p)

/-- First successful `findPath` over a forest. -/
def findPathList (target : String) : List MTree → Option (List MTree)
  | [] => none
  | t :: ts =>
    match findPath target t with
    | some p => some p
    | none => findPathList target ts

end

/-- `T->rsearch(id, true)`: the root-ward traversal from the named node,
inclusive of the node itself, ending at the root.  As in the MAT
library, an identifier absent from the tree yields the empty
traversal. -/
def rsearch (T : MTree) (target : String) : List MTree :=
  ((findPath target T).getD []).reverse

/-- One output row of the introduction walker; the fields every verified
property concerns.  (The source renders the row, together with the
clade list, mutation path and the optional region/origin and metric
columns, as one tab-separated line.) -/
structure IntroRow where
  sample : String
  introduction_node : String
  intro_confidence : ℚ
  parent_confidence : ℚ
  distance : Nat
deriving DecidableEq

/-- The ancestral state the walker reads at a node (lines 459-467 of the
source): 0 at the root, the assignment-map entry elsewhere. -/
def ancState (rootId : String) (A : List (String × ℚ)) (a : MTree) : ℚ :=
  if a.nid = rootId then 0 else lookupA0 A a.nid

/-- The introduction walk proper (lines 454-585 of the source): iterate
the root-ward traversal with the accumulator
(`last_encountered`, `last_anc_state`, `traversed`); at the root
`last_encountered` is first re-pointed at the root itself; the first
node whose ancestral state drops below the threshold triggers the
row. -/
def walkGo (rootId : String) (A : List (String × ℚ)) (θ : ℚ) (s : String) :
    List MTree → String → ℚ → Nat → Option IntroRow
  | [], _, _, _ => none
  | a :: rest, lastEnc, lastState, traversed =>
    let le := if a.nid = rootId then a.nid else lastEnc
    let anc := ancState rootId A a
    if anc < θ then
      some ⟨s, le, lastState, anc, traversed⟩
    else
      walkGo rootId A θ s rest a.nid anc (traversed + a.muts)

/-- The walk for one sample, with the source's initial accumulator
(`last_encountered = s`, `last_anc_state = 1`, `traversed = 0`). -/
def walkSample (T : MTree) (A : List (String × ℚ)) (θ : ℚ) (s : String) : Option IntroRow :=
  walkGo T.nid A θ s (rsearch T s) s 1 0

/-- `find_introductions`: the header line selected from the number of
distinct regions and the add-info flag, and, per region in order, the
walker row of every sample of that region (the region's assignment map
is built from its own sample list). -/
def find_introductions (T : MTree) (sample_regions : List (String × List String))
    (add_info : Bool) (θ : ℚ) : String × List IntroRow :=
  (introductionHeader ((sample_regions.map Prod.fst).dedup.length) add_info,
   ((sample_regions.map (fun rg =>
      rg.2.filterMap (walkSample T (get_assignments T rg.2) θ))).flatten))

/-- C7: the first emitted output line is the header, and it is exactly
the tab-separated column list determined by the region count and the
add-info flag: the five fixed columns, then — only with more than one
region — `region`, `origins`, `origins_confidence`, then `clades` and
`mutation_path`, then — only with add-info — `monophyl_size` and
`assoc_index`. -/
theorem introduction_header_columns (T : MTree) (rs : List (String × List String))
    (add_info : Bool) (θ : ℚ) :
    (find_introductions T rs add_info θ).1 =
      String.intercalate "\t"
        (["sample", "introduction_node", "intro_confidence", "parent_confidence", "distance"]
          ++ (if (rs.map Prod.fst).dedup.length = 1 then []
              else ["region", "origins", "origins_confidence"])
          ++ ["clades", "mutation_path"]
          ++ (if add_info then ["monophyl_size", "assoc_index"] else [])) ++ "\n" := by
  by_cases h : (rs.map Prod.fst).dedup.length = 1 <;>
    cases add_info <;>
      simp only [find_introductions, introductionHeader, h, if_pos, if_neg, if_true, if_false,
        Bool.false_eq_true, not_false_eq_true] <;> rfl

/-- The constant `0.5` the source compares confidences against (exact in
binary floating point), as an already-normalised rational. -/
def half : ℚ := ⟨1, 2, by decide, Nat.coprime_one_left 2⟩

mutual

/-- The `(in_c, out_c)` pair `get_association_index` records for an
internal node in `internal_tracker` (lines 137-172 of the source):
direct leaf children are classified through the assignment map
(confidence `> 0.5` is IN, otherwise OUT, unmapped leaves are skipped),
and each internal child contributes its own recorded pair.  The source
computes the pairs bottom-up over the reverse breadth-first order, so
every internal child's pair is already recorded when needed (the
`mystery internal child` error branch is unreachable); the recursion
below is that same recurrence. -/
def aiCounts (A : List (String × ℚ)) : MTree → Nat × Nat
  | .node _ _ ch => aiCountsList A ch

/-- Child-by-child accumulation of `aiCounts`. -/
def aiCountsList (A : List (String × ℚ)) : List MTree → Nat × Nat
  | [] => (0, 0)
  | c :: cs =>
    let hd :=
      if isLeaf c then
        match lookupA A c.nid with
        | some v => if half < v then ((1 : Nat), (0 : Nat)) else (0, 1)
        | none => (0, 0)
      else aiCounts A c
    let tl := aiCountsList A cs
    (hd.1 + tl.1, hd.2 + tl.2)

end

/-- The per-node term the source accumulates (line 174):
`(1 - std::max(in_c,out_c)/total_leaves) / pow(2, total_leaves-1)`.
`max/total` is a `size_t` division, so the inner subexpression is the
truncating natural division; only the final division by the power of two
is floating point.  (For `total = 0` the source's division is undefined
behaviour — see the safety theorem below; the `ℕ` convention `x / 0 = 0`
and `0 - 1 = 0` stand in for it here.) -/
def aiTerm (ic oc : Nat) : ℚ :=
  ((1 - (max ic oc) / (ic + oc) : Nat) : ℚ) / (2 : ℚ) ^ (ic + oc - 1)

/-- `get_association_index(T, assignments, false, subroot)`: the sum of
the per-internal-node terms over the subtree.  The source accumulates in
reverse breadth-first order; over exact rationals the order of the
summands is immaterial, so the depth-first enumeration of the same
internal nodes is used. -/
def get_association_index (A : List (String × ℚ)) (subroot : MTree) : ℚ :=
  (((dfs subroot).filter (fun n => !isLeaf n)).map
    (fun n => aiTerm (aiCounts A n).1 (aiCounts A n).2)).sum

/-- Modelled from the claim for comparison: the same sum with the ratio
`max/total` taken as a real-valued fraction rather than the integer
quotient. -/
def aiTermReal (ic oc : Nat) : ℚ :=
  (1 - ((max ic oc : ℚ)) / ((ic + oc : Nat) : ℚ)) / (2 : ℚ) ^ (ic + oc - 1)

/-- The claim's association index (real-valued ratio in each term). -/
def association_index_real (A : List (String × ℚ)) (subroot : MTree) : ℚ :=
  (((dfs subroot).filter (fun n => !isLeaf n)).map
    (fun n => aiTermReal (aiCounts A n).1 (aiCounts A n).2)).sum

/-- The raw constant `half` is the rational one half. -/
theorem half_eq : half = 1 / 2 := by
  apply Rat.ext <;> norm_num [half]

theorem half_lt_one : half < 1 := by decide

theorem half_nlt_zero : ¬ (half < 0) := by decide

/-- A two-leaf star: one IN leaf `a`, one OUT leaf `b`, no mutations. -/
def T2 : MTree := .node "r" 0 [.node "a" 0 [], .node "b" 0 []]

/-- C3 evaluation at the failing input `T2` with the engine's own
assignment map for region `{a}`: the root has `in_c = out_c = 1`, so the
claimed term is `(1 - 1/2) / 2 = 1/4`, but the source's `size_t`
division `max(in_c,out_c)/total_leaves` truncates `1/2` to `0` and the
code returns `(1 - 0) / 2 = 1/2`. -/
theorem association_index_integer_division :
    get_association_index (get_assignments T2 ["a"]) T2 = 1 / 2 ∧
      association_index_real (get_assignments T2 ["a"]) T2 = 1 / 4 := by
  have hfilter : ((dfs T2).filter (fun n => !isLeaf n)) = [T2] := rfl
  have hc : aiCounts (get_assignments T2 ["a"]) T2 = (1, 1) := by decide
  constructor
  · rw [get_association_index, hfilter]
    simp only [List.map_cons, List.map_nil, List.sum_cons, List.sum_nil, hc]
    norm_num [aiTerm]
  · rw [association_index_real, hfilter]
    simp only [List.map_cons, List.map_nil, List.sum_cons, List.sum_nil, hc]
    norm_num [aiTermReal]

/-- Depth-first leaves of a forest, concatenated child by child. -/
theorem leaves_filter_dfsList (ts : List MTree) :
    ((dfsList ts).filter (fun d => isLeaf d)).map MTree.nid = (ts.map leavesIds).flatten := by
  induction ts with
  | nil => rfl
  | cons t ts ih =>
    simp only [dfsList, List.filter_append, List.map_append, List.map_cons, List.flatten_cons,
      ih, leavesIds]

/-- The leaf identifiers of a node: the node itself for a leaf, the
children's leaves in order otherwise. -/
theorem leavesIds_node (i : String) (m : Nat) (ch : List MTree) :
    leavesIds (.node i m ch) =
      if ch.isEmpty then [i] else (ch.map leavesIds).flatten := by
  cases ch with
  | nil => rfl
  | cons c cs =>
    simp only [leavesIds, dfs, List.filter_cons]
    have hl : isLeaf (MTree.node i m (c :: cs)) = false := rfl
    rw [hl]
    simp only [Bool.false_eq_true, if_false, List.isEmpty_cons]
    exact leaves_filter_dfsList (c :: cs)

mutual

/-- Every subtree has at least one leaf. -/
theorem leavesIds_ne_nil (t : MTree) : leavesIds t ≠ [] := by
  cases t with
  | node i m ch =>
    rw [leavesIds_node]
    cases ch with
    | nil => simp
    | cons c cs =>
      simp only [List.isEmpty_cons, Bool.false_eq_true, if_false]
      exact leavesIdsList_ne_nil c cs

/-- Every nonempty forest has at least one leaf. -/
theorem leavesIdsList_ne_nil (c : MTree) (cs : List MTree) :
    ((c :: cs).map leavesIds).flatten ≠ [] := by
  simp only [List.map_cons, List.flatten_cons, ne_eq, List.append_eq_nil, not_and]
  intro h
  exact absurd h (leavesIds_ne_nil c)

end

/-- Membership in the depth-first expansion of a forest. -/
theorem mem_dfsList_iff (n : MTree) (ts : List MTree) :
    n ∈ dfsList ts ↔ ∃ c ∈ ts, n ∈ dfs c := by
  induction ts with
  | nil => simp [dfsList]
  | cons t ts ih =>
    simp only [dfsList, List.mem_append, ih, List.mem_cons]
    constructor
    · rintro (h | ⟨c, hc, hn⟩)
      · exact ⟨t, Or.inl rfl, h⟩
      · exact ⟨c, Or.inr hc, hn⟩
    · rintro ⟨c, hc | hc, hn⟩
      · exact Or.inl (hc ▸ hn)
      · exact Or.inr ⟨c, hc, hn⟩

mutual

/-- The leaves of a descendant node are leaves of the subtree. -/
theorem leavesIds_sub_of_mem_dfs (t n : MTree) (h : n ∈ dfs t) :
    ∀ l ∈ leavesIds n, l ∈ leavesIds t := by
  cases t with
  | node i m ch =>
    intro l hl
    rcases List.mem_cons.mp h with h1 | h2
    · exact h1 ▸ hl
    · cases ch with
      | nil => cases h2
      | cons c cs =>
        rw [leavesIds_node]
        simp only [List.isEmpty_cons, Bool.false_eq_true, if_false]
        exact leavesIds_sub_of_mem_dfsList (c :: cs) n h2 l hl

/-- The leaves of a node of a forest's expansion are leaves of the
forest. -/
theorem leavesIds_sub_of_mem_dfsList (ts : List MTree) (n : MTree) (h : n ∈ dfsList ts) :
    ∀ l ∈ leavesIds n, l ∈ (ts.map leavesIds).flatten := by
  cases ts with
  | nil => cases h
  | cons t ts =>
    intro l hl
    simp only [List.map_cons, List.flatten_cons, List.mem_append]
    rcases List.mem_append.mp h with h1 | h2
    · exact Or.inl (leavesIds_sub_of_mem_dfs t n h1 l hl)
    · exact Or.inr (leavesIds_sub_of_mem_dfsList ts n h2 l hl)

end

mutual

/-- C10, subtree form: when every leaf of the subtree is a key of the
assignment map, the recorded pair of an internal node is positive. -/
theorem aiCounts_total_pos (A : List (String × ℚ)) (t : MTree)
    (h : ∀ l ∈ leavesIds t, (lookupA A l).isSome = true) (hne : isLeaf t = false) :
    1 ≤ (aiCounts A t).1 + (aiCounts A t).2 := by
  cases t with
  | node i m ch =>
    cases ch with
    | nil => exact absurd hne (by simp [isLeaf, MTree.children])
    | cons c cs =>
      have h' : ∀ l ∈ ((c :: cs).map leavesIds).flatten, (lookupA A l).isSome = true := by
        intro l hl
        apply h
        rw [leavesIds_node]
        simpa using hl
      exact aiCountsList_total_pos A c cs h'

/-- C10, forest form: a nonempty fully-keyed forest contributes at least
one classified leaf. -/
theorem aiCountsList_total_pos (A : List (String × ℚ)) (c : MTree) (cs : List MTree)
    (h : ∀ l ∈ ((c :: cs).map leavesIds).flatten, (lookupA A l).isSome = true) :
    1 ≤ (aiCountsList A (c :: cs)).1 + (aiCountsList A (c :: cs)).2 := by
  have hhd : 1 ≤ (if isLeaf c then
      (match lookupA A c.nid with
       | some v => if half < v then ((1 : Nat), (0 : Nat)) else (0, 1)
       | none => (0, 0))
      else aiCounts A c).1 +
      (if isLeaf c then
      (match lookupA A c.nid with
       | some v => if half < v then ((1 : Nat), (0 : Nat)) else (0, 1)
       | none => (0, 0))
      else aiCounts A c).2 := by
    by_cases hc : isLeaf c = true
    · have hnid : c.nid ∈ leavesIds c := by
        cases c with
        | node i' m' ch' =>
          cases ch' with
          | nil => simp [leavesIds_node, MTree.nid]
          | cons x xs => exact absurd hc (by simp [isLeaf, MTree.children])
      have hsome := h c.nid (by
        simp only [List.map_cons, List.flatten_cons, List.mem_append]
        exact Or.inl hnid)
      rw [hc]
      simp only [if_true]
      rcases Option.isSome_iff_exists.mp hsome with ⟨v, hv⟩
      rw [hv]
      by_cases hvv : half < v <;> simp [hvv]
    · have hc' : isLeaf c = false := by simpa using hc
      rw [hc']
      simp only [Bool.false_eq_true, if_false]
      exact aiCounts_total_pos A c (fun l hl => h l (by
        simp only [List.map_cons, List.flatten_cons, List.mem_append]
        exact Or.inl hl)) hc'
  simp only [aiCountsList]
  omega

end

/-- C10: under the precondition that every leaf of the traversed subtree
is a key of the assignment map (true of every map the engine produces),
every internal node processed by `get_association_index` has
`in_c + out_c ≥ 1`, so the division by the total leaf count in its term
never divides by zero. -/
theorem ai_internal_total_positive (A : List (String × ℚ)) (subroot : MTree)
    (hcov : ∀ l ∈ leavesIds subroot, (lookupA A l).isSome = true) :
    ∀ n ∈ dfs subroot, isLeaf n = false → 1 ≤ (aiCounts A n).1 + (aiCounts A n).2 :=
  fun n hn hleaf =>
    aiCounts_total_pos A n
      (fun l hl => hcov l (leavesIds_sub_of_mem_dfs subroot n hn l hl)) hleaf

/-- C10 witness: the engine's map for region `{a}` on `T2` keys every
leaf, and the guarantee follows at `T2`. -/
theorem ai_internal_total_positive_witness :
    (∀ l ∈ leavesIds T2, (lookupA (get_assignments T2 ["a"]) l).isSome = true) ∧
      (∀ n ∈ dfs T2, isLeaf n = false →
        1 ≤ (aiCounts (get_assignments T2 ["a"]) n).1 +
            (aiCounts (get_assignments T2 ["a"]) n).2) :=
  ⟨by decide, ai_internal_total_positive (get_assignments T2 ["a"]) T2 (by decide)⟩

/-- A node heads its own depth-first expansion. -/
theorem mem_dfs_self (t : MTree) : t ∈ dfs t := by
  cases t with
  | node i m ch => exact List.mem_cons_self _ _

/-- Every confidence the engine computes lies in `[0, 1]`: each branch
of the rule set returns 0, 1, or `1 / (1 + r)` with `r ≥ 0`. -/
theorem nodeAssign_mem_unit (sset : List String) (n : MTree) :
    0 ≤ nodeAssign sset n ∧ nodeAssign sset n ≤ 1 := by
  simp only [nodeAssign]
  split_ifs with h1 h2 h3 h4 h5 h6
  · norm_num
  · norm_num
  · norm_num
  · norm_num
  · norm_num
  · norm_num
  · set mm := scanMins sset (leafDists n) (0, 0) with hmm
    set outn := ((leavesIds n).filter (fun l => l ∉ sset)).dedup.length with ho
    set inn := ((leavesIds n).filter (fun l => l ∈ sset)).dedup.length with hi
    have hr : (0 : ℚ) ≤ ((mm.1 : ℚ) / (inn : ℚ)) / ((mm.2 : ℚ) / (outn : ℚ)) := by
      positivity
    constructor
    · positivity
    · rw [div_le_one (by linarith)]
      linarith

/-- Leaves of a leaf node. -/
theorem leavesIds_leaf (t : MTree) (h : isLeaf t = true) : leavesIds t = [t.nid] := by
  cases t with
  | node i m ch =>
    cases ch with
    | nil => rfl
    | cons c cs => exact absurd h (by simp [isLeaf, MTree.children])

/-- C2: every entry of the produced assignment map lies in `[0,1]`; a
leaf is assigned exactly 1 when it is in the region's sample set and 0
otherwise; a node all of whose descendant leaves are in the set is
assigned 1, and one with none of them in the set is assigned 0. -/
theorem get_assignments_invariants (T : MTree) (sset : List String) :
    (∀ p ∈ get_assignments T sset, 0 ≤ p.2 ∧ p.2 ≤ 1) ∧
      (∀ n ∈ dfs T,
        (isLeaf n = true → nodeAssign sset n = (if n.nid ∈ sset then 1 else 0)) ∧
        ((∀ l ∈ leavesIds n, l ∈ sset) → nodeAssign sset n = 1) ∧
        ((∀ l ∈ leavesIds n, l ∉ sset) → nodeAssign sset n = 0)) := by
  constructor
  · intro p hp
    rcases List.mem_map.mp hp with ⟨n, _, rfl⟩
    exact nodeAssign_mem_unit sset n
  · intro n _
    refine ⟨?_, ?_, ?_⟩
    · intro hleaf
      simp [nodeAssign, hleaf]
    · intro hall
      by_cases hleaf : isLeaf n = true
      · have := hall n.nid (by rw [leavesIds_leaf n hleaf]; exact List.mem_singleton.mpr rfl)
        simp [nodeAssign, hleaf, this]
      · have hout : ((leavesIds n).filter (fun l => l ∉ sset)) = [] := by
          rw [List.filter_eq_nil_iff]
          intro l hl
          simpa using hall l hl
        have hleaf' : isLeaf n = false := by simpa using hleaf
        have hcond : ((leavesIds n).filter (fun l => l ∉ sset)).dedup.length = 0 := by
          rw [hout]
          rfl
        simp only [nodeAssign, hleaf', Bool.false_eq_true, if_false]
        rw [if_pos hcond]
    · intro hnone
      by_cases hleaf : isLeaf n = true
      · have := hnone n.nid (by rw [leavesIds_leaf n hleaf]; exact List.mem_singleton.mpr rfl)
        simp [nodeAssign, hleaf, this]
      · have hleaf' : isLeaf n = false := by simpa using hleaf
        have hin : ((leavesIds n).filter (fun l => l ∈ sset)) = [] := by
          rw [List.filter_eq_nil_iff]
          intro l hl
          simpa using hnone l hl
        have hout : ((leavesIds n).filter (fun l => l ∉ sset)) = leavesIds n := by
          rw [List.filter_eq_self]
          intro l hl
          simpa using hnone l hl
        have houtne : ¬ ((leavesIds n).filter (fun l => l ∉ sset)).dedup.length = 0 := by
          rw [hout]
          simp only [List.length_eq_zero, List.dedup_eq_nil]
          exact leavesIds_ne_nil n
        have hincond : ((leavesIds n).filter (fun l => l ∈ sset)).dedup.length = 0 := by
          rw [hin]
          rfl
        simp only [nodeAssign, hleaf', Bool.false_eq_true, if_false]
        rw [if_neg houtne, if_pos hincond]

/-- C2 witness: the guarantees instantiated on `T2` with region `{a}`:
the root's map entry is in `[0,1]`, and the IN leaf `a` is assigned 1. -/
theorem get_assignments_invariants_witness :
    (0 ≤ nodeAssign ["a"] T2 ∧ nodeAssign ["a"] T2 ≤ 1) ∧
      nodeAssign ["a"] (MTree.node "a" 0 []) = 1 :=
  ⟨(get_assignments_invariants T2 ["a"]).1 _ (List.mem_map_of_mem _ (mem_dfs_self T2)),
   ((get_assignments_invariants T2 ["a"]).2 (MTree.node "a" 0 [])
      (by simp [T2, dfs, dfsList])).2.1 (by decide)⟩

/-- The value the rule-4 scan leaves in `min_to_in`: the chain distance
of the first IN leaf, in depth-first order, whose chain distance is
positive — or 0 when every IN leaf of the subtree sits at chain
distance 0 (a zero distance is indistinguishable from the unset
sentinel). -/
def firstPosIn (sset : List String) (ds : List (String × Nat)) : Nat :=
  ((ds.filter (fun p => p.1 ∈ sset ∧ p.2 ≠ 0)).map Prod.snd).headD 0

/-- The value the rule-4 scan leaves in `min_to_out`. -/
def firstPosOut (sset : List String) (ds : List (String × Nat)) : Nat :=
  ((ds.filter (fun p => p.1 ∉ sset ∧ p.2 ≠ 0)).map Prod.snd).headD 0

/-- Unfolding `firstPosIn` over the first leaf. -/
theorem firstPosIn_cons (sset : List String) (p : String × Nat) (rest : List (String × Nat)) :
    firstPosIn sset (p :: rest) =
      if p.1 ∈ sset ∧ p.2 ≠ 0 then p.2 else firstPosIn sset rest := by
  by_cases h : p.1 ∈ sset ∧ p.2 ≠ 0 <;> simp [firstPosIn, List.filter_cons, h]

/-- Unfolding `firstPosOut` over the first leaf. -/
theorem firstPosOut_cons (sset : List String) (p : String × Nat) (rest : List (String × Nat)) :
    firstPosOut sset (p :: rest) =
      if p.1 ∉ sset ∧ p.2 ≠ 0 then p.2 else firstPosOut sset rest := by
  by_cases h : p.1 ∉ sset ∧ p.2 ≠ 0 <;> simp [firstPosOut, List.filter_cons, h]

/-- The scanning loop computes exactly the first-positive-distance
values: a still-unset (`= 0`) accumulator component ends up holding the
first positive chain distance of its class, an already-set component is
left alone, and the early break once both components are positive does
not change the outcome. -/
theorem scanMins_eq (sset : List String) (ds : List (String × Nat)) :
    ∀ mi mo : Nat,
      scanMins sset ds (mi, mo) =
        (if mi = 0 then firstPosIn sset ds else mi,
         if mo = 0 then firstPosOut sset ds else mo) := by
  induction ds with
  | nil =>
    intro mi mo
    simp only [scanMins, firstPosIn, firstPosOut, List.filter_nil, List.map_nil, List.headD_nil,
      Prod.mk.injEq]
    constructor <;> split_ifs <;> omega
  | cons p rest ih =>
    intro mi mo
    rw [scanMins, firstPosIn_cons, firstPosOut_cons]
    by_cases hin : p.1 ∈ sset
    · by_cases hmi : mi = 0
      · have hbreak : ¬ (0 < mi ∧ 0 < mo) := by omega
        rw [if_neg hbreak, if_pos ⟨hin, hmi⟩, ih]
        by_cases hp2 : p.2 = 0
        · simp [hmi, hp2, hin]
        · simp [hmi, hp2, hin]
      · by_cases hbreak : 0 < mi ∧ 0 < mo
        · rw [if_pos hbreak]
          have hmo : ¬ mo = 0 := by omega
          simp [hmi, hmo]
        · rw [if_neg hbreak, if_neg (by tauto), if_neg (by tauto), ih]
          simp [hmi, hin]
    · by_cases hmo : mo = 0
      · have hbreak : ¬ (0 < mi ∧ 0 < mo) := by omega
        rw [if_neg hbreak, if_neg (by tauto), if_pos ⟨hin, hmo⟩, ih]
        by_cases hp2 : p.2 = 0
        · simp [hmo, hp2, hin]
        · simp [hmo, hp2, hin]
      · by_cases hbreak : 0 < mi ∧ 0 < mo
        · rw [if_pos hbreak]
          have hmi : ¬ mi = 0 := by omega
          simp [hmi, hmo]
        · rw [if_neg hbreak, if_neg (by tauto), if_neg (by tauto), ih]
          simp [hmo, hin]

/-- Modelled from the claim C1's words, for comparison with the
source's rule: the nearest leaf of each class is the first leaf of that
class in the depth-first traversal (regardless of its distance), and
each distance is the root-ward chain sum exclusive of `n`'s incoming
edge (the children's `leafDists`, without `n`'s own mutation count). -/
def nodeAssignClaim (sset : List String) (n : MTree) : ℚ :=
  let ds := (n.children.map leafDists).flatten
  let mi := ((ds.filter (fun p => p.1 ∈ sset)).map Prod.snd).headD 0
  let mo := ((ds.filter (fun p => p.1 ∉ sset)).map Prod.snd).headD 0
  let iL := ((leavesIds n).filter (fun l => l ∈ sset)).dedup.length
  let oL := ((leavesIds n).filter (fun l => l ∉ sset)).dedup.length
  if mi = 0 then 1
  else if mo = 0 then 0
  else 1 / (1 + ((mi : ℚ) / (iL : ℚ)) / ((mo : ℚ) / (oL : ℚ)))

/-- A mixed subtree: root `Y` (1 mutation) with internal child `X`
(1 mutation) over IN leaves `B`, `B2` (1 mutation each) and OUT leaf `W`
(0 mutations). -/
def Tmix : MTree :=
  .node "Y" 1 [.node "X" 1 [.node "B" 1 [], .node "B2" 1 []], .node "W" 0 []]

/-- C1 counterexample: `Y` is a mixed internal node for region
`{B, B2}`.  Under the claim's reading (`mo` = exclusive distance of the
first OUT leaf in depth-first order, here `W` at distance 0) the claimed
value is 0.  The code instead includes `Y`'s own mutation count in every
chain (so no leaf sits at distance 0), scans past zero-distance leaves,
and returns `1 / (1 + (3/2)/(1/1)) = 2/5`. -/
theorem nodeAssign_claim_counterexample :
    isLeaf Tmix = false ∧
      (∃ l ∈ leavesIds Tmix, l ∈ ["B", "B2"]) ∧
      (∃ l ∈ leavesIds Tmix, l ∉ ["B", "B2"]) ∧
      nodeAssignClaim ["B", "B2"] Tmix = 0 ∧
      nodeAssign ["B", "B2"] Tmix = 2 / 5 := by
  refine ⟨rfl, by decide, by decide, by decide, ?_⟩
  have hsc : scanMins ["B", "B2"] (leafDists Tmix) (0, 0) = (3, 1) := by decide
  have hil : ((leavesIds Tmix).filter (fun l => l ∈ ["B", "B2"])).dedup.length = 2 := by decide
  have hol : ((leavesIds Tmix).filter (fun l => l ∉ ["B", "B2"])).dedup.length = 1 := by decide
  have hleaf : isLeaf Tmix = false := rfl
  simp only [nodeAssign, hleaf, Bool.false_eq_true, if_false, hsc, hil, hol]
  norm_num

/-- C1 (amended): for a mixed internal node the code's value is 1 when
`mi = 0`, else 0 when `mo = 0`, else `1/(1 + (mi/iL)/(mo/oL))` — where
each chain distance additionally includes `n`'s own mutation count, and
`mi`/`mo` are the chain distances of the first leaf of the class in
depth-first order with a positive chain distance (0 when every leaf of
the class sits at chain distance 0, not merely the first leaf's
distance). -/
theorem nodeAssign_mixed_amended (sset : List String) (n : MTree)
    (hleaf : isLeaf n = false)
    (hin : ∃ l ∈ leavesIds n, l ∈ sset) (hout : ∃ l ∈ leavesIds n, l ∉ sset) :
    nodeAssign sset n =
      (let mi := firstPosIn sset (leafDists n)
       let mo := firstPosOut sset (leafDists n)
       let iL := ((leavesIds n).filter (fun l => l ∈ sset)).dedup.length
       let oL := ((leavesIds n).filter (fun l => l ∉ sset)).dedup.length
       if mi = 0 then 1
       else if mo = 0 then 0
       else 1 / (1 + ((mi : ℚ) / (iL : ℚ)) / ((mo : ℚ) / (oL : ℚ)))) := by
  have hinne : ¬ ((leavesIds n).filter (fun l => l ∈ sset)).dedup.length = 0 := by
    obtain ⟨l, hl, hls⟩ := hin
    simp only [List.length_eq_zero, List.dedup_eq_nil]
    exact List.ne_nil_of_mem (List.mem_filter.mpr ⟨hl, by simpa using hls⟩)
  have houtne : ¬ ((leavesIds n).filter (fun l => l ∉ sset)).dedup.length = 0 := by
    obtain ⟨l, hl, hls⟩ := hout
    simp only [List.length_eq_zero, List.dedup_eq_nil]
    exact List.ne_nil_of_mem (List.mem_filter.mpr ⟨hl, by simpa using hls⟩)
  simp only [nodeAssign, hleaf, Bool.false_eq_true, if_false]
  rw [if_neg houtne, if_neg hinne, scanMins_eq]
  norm_num

/-- C1 witness: the amended rule instantiated at the mixed node `Y` of
`Tmix` for region `{B, B2}`. -/
theorem nodeAssign_mixed_amended_witness :
    isLeaf Tmix = false ∧
      nodeAssign ["B", "B2"] Tmix =
        (let mi := firstPosIn ["B", "B2"] (leafDists Tmix)
         let mo := firstPosOut ["B", "B2"] (leafDists Tmix)
         let iL := ((leavesIds Tmix).filter (fun l => l ∈ ["B", "B2"])).dedup.length
         let oL := ((leavesIds Tmix).filter (fun l => l ∉ ["B", "B2"])).dedup.length
         if mi = 0 then 1
         else if mo = 0 then 0
         else 1 / (1 + ((mi : ℚ) / (iL : ℚ)) / ((mo : ℚ) / (oL : ℚ)))) :=
  ⟨rfl, nodeAssign_mixed_amended ["B", "B2"] Tmix rfl (by decide) (by decide)⟩

mutual

/-- A found root-down path is a sublist of the depth-first expansion. -/
theorem findPath_sublist (target : String) (t : MTree) (p : List MTree)
    (h : findPath target t = some p) : p.Sublist (dfs t) := by
  cases t with
  | node i m ch =>
    rw [findPath] at h
    by_cases hi : i = target
    · rw [if_pos hi, Option.some_inj] at h
      subst h
      exact (List.nil_sublist _).cons₂ _
    · rw [if_neg hi] at h
      rcases Option.map_eq_some'.mp h with ⟨p', hp', rfl⟩
      exact (findPathList_sublist target ch p' hp').cons₂ _

/-- A path found in a forest is a sublist of the forest's expansion. -/
theorem findPathList_sublist (target : String) (ts : List MTree) (p : List MTree)
    (h : findPathList target ts = some p) : p.Sublist (dfsList ts) := by
  cases ts with
  | nil => cases h
  | cons t ts =>
    rw [findPathList] at h
    cases hf : findPath target t with
    | some q =>
      rw [hf, Option.some_inj] at h
      subst h
      exact (findPath_sublist target t _ hf).trans (List.sublist_append_left _ _)
    | none =>
      rw [hf] at h
      exact (findPathList_sublist target ts p h).trans (List.sublist_append_right _ _)

end

/-- A found path starts at the tree root. -/
theorem findPath_head (target : String) (t : MTree) (p : List MTree)
    (h : findPath target t = some p) : ∃ q, p = t :: q := by
  cases t with
  | node i m ch =>
    rw [findPath] at h
    by_cases hi : i = target
    · rw [if_pos hi, Option.some_inj] at h
      exact ⟨[], h.symm⟩
    · rw [if_neg hi] at h
      rcases Option.map_eq_some'.mp h with ⟨p', _, rfl⟩
      exact ⟨p', rfl⟩

mutual

/-- A found path ends at the node carrying the target identifier. -/
theorem findPath_last (target : String) (t : MTree) (p : List MTree)
    (h : findPath target t = some p) : (p.map MTree.nid).getLast? = some target := by
  cases t with
  | node i m ch =>
    rw [findPath] at h
    by_cases hi : i = target
    · rw [if_pos hi, Option.some_inj] at h
      subst h
      simpa [MTree.nid] using hi
    · rw [if_neg hi] at h
      rcases Option.map_eq_some'.mp h with ⟨p', hp', rfl⟩
      have htail := findPathList_last target ch p' hp'
      cases p' with
      | nil => simp at htail
      | cons x xs =>
        simpa [List.getLast?_cons_cons] using htail

/-- A path found in a forest ends at the target node. -/
theorem findPathList_last (target : String) (ts : List MTree) (p : List MTree)
    (h : findPathList target ts = some p) : (p.map MTree.nid).getLast? = some target := by
  cases ts with
  | nil => cases h
  | cons t ts =>
    rw [findPathList] at h
    cases hf : findPath target t with
    | some q =>
      rw [hf, Option.some_inj] at h
      subst h
      exact findPath_last target t _ hf
    | none =>
      rw [hf] at h
      exact findPathList_last target ts p h

end

mutual

/-- An identifier present in the subtree is found. -/
theorem findPath_isSome (target : String) (t : MTree)
    (h : ∃ x ∈ dfs t, x.nid = target) : (findPath target t).isSome = true := by
  cases t with
  | node i m ch =>
    rw [findPath]
    by_cases hi : i = target
    · rw [if_pos hi]
      rfl
    · rw [if_neg hi]
      rcases h with ⟨x, hx, hxt⟩
      rcases List.mem_cons.mp hx with rfl | hx'
      · exact absurd hxt (by simpa [MTree.nid] using hi)
      · have := findPathList_isSome target ch ⟨x, hx', hxt⟩
        rcases Option.isSome_iff_exists.mp this with ⟨p', hp'⟩
        rw [hp']
        rfl

/-- An identifier present in the forest is found. -/
theorem findPathList_isSome (target : String) (ts : List MTree)
    (h : ∃ x ∈ dfsList ts, x.nid = target) : (findPathList target ts).isSome = true := by
  cases ts with
  | nil =>
    rcases h with ⟨x, hx, _⟩
    cases hx
  | cons t ts =>
    rw [findPathList]
    rcases h with ⟨x, hx, hxt⟩
    cases hf : findPath target t with
    | some q => rfl
    | none =>
      rcases List.mem_append.mp hx with hx1 | hx2
      · have := findPath_isSome target t ⟨x, hx1, hxt⟩
        rw [hf] at this
        cases this
      · exact findPathList_isSome target ts ⟨x, hx2, hxt⟩

end

/-- The walk loop, characterised: an emitted row splits the traversal
into a prefix `pre` of nodes whose ancestral state stayed at or above
the threshold, followed by the first node `a` whose state dropped below
it; the row's fields are determined by `pre`, `a` and the initial
accumulator. -/
theorem walkGo_some_spec (rootId : String) (A : List (String × ℚ)) (θ : ℚ) (s : String) :
    ∀ (path : List MTree) (le : String) (ls : ℚ) (tr : Nat) (r : IntroRow),
      walkGo rootId A θ s path le ls tr = some r →
      ∃ pre a rest, path = pre ++ a :: rest ∧
        (∀ x ∈ pre, ¬ ancState rootId A x < θ) ∧
        ancState rootId A a < θ ∧
        r.sample = s ∧
        r.parent_confidence = ancState rootId A a ∧
        r.intro_confidence = (pre.map (ancState rootId A)).getLastD ls ∧
        r.distance = tr + (pre.map MTree.muts).sum ∧
        r.introduction_node =
          (if a.nid = rootId then a.nid else (pre.map MTree.nid).getLastD le) := by
  intro path
  induction path with
  | nil =>
    intro le ls tr r h
    cases h
  | cons a' rest' ih =>
    intro le ls tr r h
    simp only [walkGo] at h
    by_cases hlt : ancState rootId A a' < θ
    · rw [if_pos hlt, Option.some_inj] at h
      refine ⟨[], a', rest', rfl, by simp, hlt, ?_, ?_, ?_, ?_, ?_⟩ <;>
        subst h <;> simp
    · rw [if_neg hlt] at h
      rcases ih a'.nid (ancState rootId A a') (tr + a'.muts) r h with
        ⟨pre', a'', rest'', heq, hpre, hlt2, hs, hpc, hic, hd, hin⟩
      refine ⟨a' :: pre', a'', rest'', by rw [List.cons_append, heq], ?_, hlt2, hs, hpc,
        ?_, ?_, ?_⟩
      · intro x hx
        rcases List.mem_cons.mp hx with rfl | hx'
        · exact hlt
        · exact hpre x hx'
      · rw [hic, List.map_cons, List.getLastD_cons]
      · rw [hd, List.map_cons, List.sum_cons]
        omega
      · rw [hin, List.map_cons, List.getLastD_cons]

/-- The walk emits as soon as some node of the traversal sits below the
threshold. -/
theorem walkGo_isSome (rootId : String) (A : List (String × ℚ)) (θ : ℚ) (s : String) :
    ∀ (path : List MTree) (le : String) (ls : ℚ) (tr : Nat),
      (∃ x ∈ path, ancState rootId A x < θ) →
      (walkGo rootId A θ s path le ls tr).isSome = true := by
  intro path
  induction path with
  | nil =>
    intro le ls tr h
    rcases h with ⟨x, hx, _⟩
    cases hx
  | cons a' rest' ih =>
    intro le ls tr h
    simp only [walkGo]
    by_cases hlt : ancState rootId A a' < θ
    · rw [if_pos hlt]
      rfl
    · rw [if_neg hlt]
      rcases h with ⟨x, hx, hxlt⟩
      rcases List.mem_cons.mp hx with rfl | hx'
      · exact absurd hxlt hlt
      · exact ih a'.nid (ancState rootId A a') (tr + a'.muts) ⟨x, hx', hxlt⟩

/-- The mutation count the walker accumulates strictly below a node:
the edges on the path between the sample and the named node. -/
def walkEdgeSum (T : MTree) (s nid : String) : Nat :=
  (((rsearch T s).takeWhile (fun x => x.nid ≠ nid)).map MTree.muts).sum

/-- The named node's own mutation count, read off the walk. -/
def walkNodeMuts (T : MTree) (s nid : String) : Nat :=
  (((rsearch T s).find? (fun x => x.nid = nid)).map MTree.muts).getD 0

/-- The walker test tree: root `R` over OUT leaf `Z` and the
mutation-free internal node `Y`, which holds the all-IN node `X`
(leaves `B`, `B2`) and OUT leaf `W`.  For region `{B, B2}` the engine
assigns `B = B2 = X = 1` and `Z = W = Y = R = 0` (both mixed nodes hit
the `min_to_out = 0` branch of rule 4, as `W` sits at chain distance 0),
so every confidence is an integer and the walk from `B` stops at `Y`
with introduction node `X`. -/
def Tw : MTree :=
  .node "R" 0 [.node "Z" 0 [],
    .node "Y" 0 [.node "X" 1 [.node "B" 1 [], .node "B2" 1 []], .node "W" 0 []]]

/-- C4 counterexample: with threshold 0 the in-tree, in-region sample
`B` finishes its walk at the root without any state dropping below the
threshold and no row is emitted; and a sample `Q` absent from the tree
has an empty root-ward traversal, so it too gets no row — against the
claim that every sample of the input sequence yields exactly one row. -/
theorem walker_row_claim_counterexample :
    (find_introductions Tw [("default", ["B", "B2"])] false 0).2.length = 0 ∧
      (find_introductions Tw [("default", ["Q"])] false 1).2.length = 0 ∧
      "B" ∈ allIds Tw ∧ List.count "B" ["B", "B2"] = 1 := by
  decide

/-- C5 counterexample: with threshold `θ = 2` the walk from `B` emits at
the very first node, with `intro_confidence` equal to the initial
accumulator value 1, so `θ ≤ intro_confidence` fails although the walk
did not reach the root (`parent_confidence = 1 ≠ 0`). -/
theorem walker_confidence_counterexample :
    walkSample Tw (get_assignments Tw ["B", "B2"]) 2 "B" =
      some ⟨"B", "B", 1, 1, 0⟩ ∧
      ¬ ((2 : ℚ) ≤ (1 : ℚ)) ∧ "B" ≠ Tw.nid ∧ (1 : ℚ) ≠ 0 := by
  decide

/-- C6 counterexample: the walk from `B` (threshold 1) emits at `Y` with
introduction node `X` and distance 2, but the edges on the path between
`B` and `X` carry only 1 mutation — the walker has already added `X`'s
own incoming-edge mutation before stepping past `X`. -/
theorem walker_distance_counterexample :
    walkSample Tw (get_assignments Tw ["B", "B2"]) 1 "B" =
      some ⟨"B", "X", 1, 0, 2⟩ ∧
      walkEdgeSum Tw "B" "X" = 1 ∧ (2 : Nat) ≠ 1 := by
  decide

/-- The last element (with default) of a nonempty list is a member. -/
theorem getLastD_mem_of_ne_nil {α : Type} (l : List α) (d : α) (h : l ≠ []) :
    l.getLastD d ∈ l := by
  induction l generalizing d with
  | nil => exact absurd rfl h
  | cons x xs ih =>
    rw [List.getLastD_cons]
    cases xs with
    | nil => simp
    | cons y ys => exact List.mem_cons_of_mem x (ih x (by simp))

/-- The tree root belongs to every nonempty root-ward traversal. -/
theorem root_mem_rsearch (T : MTree) (s : String) (h : ∃ x ∈ dfs T, x.nid = s) :
    T ∈ rsearch T s := by
  rcases Option.isSome_iff_exists.mp (findPath_isSome s T h) with ⟨p, hp⟩
  rcases findPath_head s T p hp with ⟨q, rfl⟩
  unfold rsearch
  rw [hp]
  simp

/-- A nonempty root-ward traversal starts at the queried node. -/
theorem rsearch_head_nid (T : MTree) (s : String) (a : MTree) (rest : List MTree)
    (h : rsearch T s = a :: rest) : a.nid = s := by
  unfold rsearch at h
  cases hfp : findPath s T with
  | none =>
    rw [hfp] at h
    cases h
  | some p =>
    rw [hfp, Option.getD_some] at h
    have hl := findPath_last s T p hfp
    rw [← List.head?_reverse, ← List.map_reverse, h] at hl
    simpa using hl

/-- A present sample with a positive threshold always produces a row:
the root's ancestral state is hard-coded to 0. -/
theorem walkSample_isSome (T : MTree) (A : List (String × ℚ)) (θ : ℚ) (s : String)
    (hθ : 0 < θ) (hs : s ∈ allIds T) : (walkSample T A θ s).isSome = true := by
  apply walkGo_isSome
  refine ⟨T, root_mem_rsearch T s ?_, ?_⟩
  · rcases List.mem_map.mp hs with ⟨x, hx, hxs⟩
    exact ⟨x, hx, hxs⟩
  · simpa [ancState] using hθ

/-- The emitted row names the walked sample. -/
theorem walkSample_sample (T : MTree) (A : List (String × ℚ)) (θ : ℚ) (s : String)
    (r : IntroRow) (h : walkSample T A θ s = some r) : r.sample = s := by
  rcases walkGo_some_spec T.nid A θ s (rsearch T s) s 1 0 r h with
    ⟨_, _, _, _, _, _, hsam, _⟩
  exact hsam

/-- Row counting for one region: each occurrence of a present sample
emits exactly one row naming it, and rows of other samples name those
samples. -/
theorem walk_rows_count (T : MTree) (A : List (String × ℚ)) (θ : ℚ) (s : String)
    (hθ : 0 < θ) (hs : s ∈ allIds T) (samples : List String) :
    ((samples.filterMap (walkSample T A θ)).filter (fun r => r.sample = s)).length =
      samples.count s := by
  induction samples with
  | nil => rfl
  | cons s' rest ih =>
    rw [List.filterMap_cons]
    by_cases hss : s' = s
    · subst hss
      rcases Option.isSome_iff_exists.mp (walkSample_isSome T A θ s' hθ hs) with ⟨r, hr⟩
      rw [hr]
      have hsample : r.sample = s' := walkSample_sample T A θ s' r hr
      rw [List.filter_cons]
      simp [hsample, List.count_cons, ih]
    · cases hw : walkSample T A θ s' with
      | none =>
        simpa [List.count_cons, hss] using ih
      | some r =>
        have hsample : r.sample = s' := walkSample_sample T A θ s' r hw
        rw [List.filter_cons]
        simp [hsample, hss, ih, List.count_cons]

/-- C4 (amended): provided the threshold is positive and the sample
names a node of the tree, the walker emits exactly one row per
occurrence of the sample in the region's input sequence, and the
recorded introduction node lies on the root-ward path from the
sample. -/
theorem walker_one_row_per_sample (T : MTree) (θ : ℚ) (s reg : String)
    (samples : List String) (add_info : Bool) (hθ : 0 < θ) (hs : s ∈ allIds T) :
    ((find_introductions T [(reg, samples)] add_info θ).2.filter
        (fun r => r.sample = s)).length = samples.count s ∧
      ∀ r ∈ (find_introductions T [(reg, samples)] add_info θ).2,
        r.sample = s → r.introduction_node ∈ (rsearch T s).map MTree.nid := by
  have hrows : (find_introductions T [(reg, samples)] add_info θ).2 =
      samples.filterMap (walkSample T (get_assignments T samples) θ) := by
    simp [find_introductions]
  rw [hrows]
  constructor
  · exact walk_rows_count T (get_assignments T samples) θ s hθ hs samples
  · intro r hr hsam
    rcases List.mem_filterMap.mp hr with ⟨s', _, hw⟩
    have hs' : r.sample = s' := walkSample_sample T _ θ s' r hw
    have hseq : s' = s := by rw [← hs', hsam]
    subst hseq
    rcases walkGo_some_spec T.nid _ θ s' (rsearch T s') s' 1 0 r hw with
      ⟨pre, a, rest, heq, _, _, _, _, _, _, hin⟩
    rw [hin]
    by_cases ha : a.nid = T.nid
    · rw [if_pos ha]
      exact List.mem_map_of_mem _ (heq ▸ List.mem_append_right pre (List.mem_cons_self a rest))
    · rw [if_neg ha]
      cases hpre : pre with
      | nil =>
        simp only [List.map_nil, List.getLastD_nil]
        cases hr2 : rsearch T s' with
        | nil => rw [hr2] at heq; exact absurd heq.symm (by simp)
        | cons y ys =>
          have : y.nid = s' := rsearch_head_nid T s' y ys hr2
          exact List.mem_map.mpr ⟨y, List.mem_cons_self y ys, this⟩
      | cons x xs =>
        rw [← hpre]
        have hne : pre.map MTree.nid ≠ [] := by rw [hpre]; simp
        have hmem := getLastD_mem_of_ne_nil (pre.map MTree.nid) s' hne
        have hsub : ∀ i ∈ pre.map MTree.nid, i ∈ (rsearch T s').map MTree.nid := by
          intro i hi

          rcases List.mem_map.mp hi with ⟨x0, hx0, rfl⟩
          exact List.mem_map_of_mem _ (heq ▸ List.mem_append_left _ hx0)
        exact hsub _ hmem

/-- C4 witness: on `Tw` with region `{B, B2}` and threshold 1, the
sample `B` yields exactly one row whose introduction node is on `B`'s
root-ward path. -/
theorem walker_one_row_per_sample_witness :
    ((0 : ℚ) < 1 ∧ "B" ∈ allIds Tw) ∧
      (((find_introductions Tw [("default", ["B", "B2"])] false 1).2.filter
          (fun r => r.sample = "B")).length = List.count "B" ["B", "B2"] ∧
        ∀ r ∈ (find_introductions Tw [("default", ["B", "B2"])] false 1).2,
          r.sample = "B" → r.introduction_node ∈ (rsearch Tw "B").map MTree.nid) :=
  ⟨⟨by decide, by decide⟩,
   walker_one_row_per_sample Tw 1 "B" "default" ["B", "B2"] false (by decide) (by decide)⟩

/-- With unique identifiers, the identifiers along a root-ward
traversal are pairwise distinct. -/
theorem rsearch_nids_nodup (T : MTree) (s : String) (hu : uniqueIds T) :
    ((rsearch T s).map MTree.nid).Nodup := by
  unfold rsearch
  cases hfp : findPath s T with
  | none => simp
  | some p =>
    rw [Option.getD_some, List.map_reverse]
    rw [List.nodup_reverse]
    exact List.Nodup.sublist ((findPath_sublist s T p hfp).map MTree.nid) hu

/-- The last element (with default) of an appended nonempty tail. -/
theorem getLastD_append_cons {α : Type} (l₁ : List α) (x : α) (l₂ : List α) (d : α) :
    (l₁ ++ x :: l₂).getLastD d = (x :: l₂).getLastD d := by
  induction l₁ generalizing d with
  | nil => rfl
  | cons y ys ih =>
    rw [List.cons_append, List.getLastD_cons, ih y, List.getLastD_cons, List.getLastD_cons]

/-- C5 (amended): provided `θ ≤ 1`, every emitted row satisfies
`parent_confidence < θ ≤ intro_confidence`; when the recorded
introduction node is the root, `parent_confidence = 0`; and the
traversal splits into a prefix of states at or above `θ` — whose last
state (default: the initial 1) is `intro_confidence` — followed by the
first state under `θ`, which is `parent_confidence`. -/
theorem walker_confidence_bounds (T : MTree) (A : List (String × ℚ)) (θ : ℚ) (s : String)
    (r : IntroRow) (hu : uniqueIds T) (hθ : θ ≤ 1)
    (h : walkSample T A θ s = some r) :
    r.parent_confidence < θ ∧ θ ≤ r.intro_confidence ∧
      (r.introduction_node = T.nid → r.parent_confidence = 0) ∧
      ∃ pre a rest, rsearch T s = pre ++ a :: rest ∧
        (∀ x ∈ pre, θ ≤ ancState T.nid A x) ∧
        ancState T.nid A a < θ ∧
        r.intro_confidence = (pre.map (ancState T.nid A)).getLastD 1 ∧
        r.parent_confidence = ancState T.nid A a := by
  rcases walkGo_some_spec T.nid A θ s (rsearch T s) s 1 0 r h with
    ⟨pre, a, rest, heq, hpre, hlt, hsam, hpc, hic, hd, hin⟩
  have hpre' : ∀ x ∈ pre, θ ≤ ancState T.nid A x := fun x hx => not_lt.mp (hpre x hx)
  refine ⟨by rw [hpc]; exact hlt, ?_, ?_, pre, a, rest, heq, hpre', hlt, hic, hpc⟩
  · rw [hic]
    by_cases hp : pre = []
    · rw [hp]
      simpa using hθ
    · have hne : pre.map (ancState T.nid A) ≠ [] := by simpa using hp
      have hmem := getLastD_mem_of_ne_nil _ (1 : ℚ) hne
      rcases List.mem_map.mp hmem with ⟨x0, hx0, hx0e⟩
      rw [← hx0e]
      exact hpre' x0 hx0
  · intro hroot
    by_cases ha : a.nid = T.nid
    · rw [hpc]
      simp [ancState, ha]
    · exfalso
      rw [hin, if_neg ha] at hroot
      cases hfp : findPath s T with
      | none =>
        have : rsearch T s = [] := by unfold rsearch; rw [hfp]; rfl
        rw [this] at heq
        exact absurd heq.symm (by simp)
      | some p =>
        have hres : rsearch T s = p.reverse := by unfold rsearch; rw [hfp, Option.getD_some]
        obtain ⟨q, rfl⟩ := findPath_head s T p hfp
        cases hp : pre with
        | nil =>
          rw [hp] at hroot
          simp only [List.map_nil, List.getLastD_nil] at hroot
          rw [hp] at heq
          have := rsearch_head_nid T s a rest (by simpa using heq)
          exact ha (this.trans hroot)
        | cons x xs =>
          have hTmem : MTree.node T.nid T.muts T.children ∈ a :: rest := by
            have h2 : rsearch T s = q.reverse ++ [MTree.node T.nid T.muts T.children] := by
              rw [hres]
              cases T with
              | node i m ch => simp [MTree.nid, MTree.muts, MTree.children]
            have h3 : (q.reverse ++ [MTree.node T.nid T.muts T.children]).getLastD a =
                MTree.node T.nid T.muts T.children := by
              rw [getLastD_append_cons]
              rfl
            have h4 : (a :: rest).getLastD a = MTree.node T.nid T.muts T.children := by
              rw [← getLastD_append_cons pre a rest a, ← heq, h2, h3]
            rw [← h4]
            exact getLastD_mem_of_ne_nil _ _ (by simp)
          have hnodup : ((pre ++ a :: rest).map MTree.nid).Nodup :=
            heq ▸ rsearch_nids_nodup T s hu
          rw [List.map_append] at hnodup
          have hdisj := (List.nodup_append.mp hnodup).2.2
          have hint : T.nid ∈ pre.map MTree.nid := by
            rw [← hroot]
            apply getLastD_mem_of_ne_nil
            rw [hp]
            simp
          have hinr : T.nid ∈ (a :: rest).map MTree.nid :=
            List.mem_map.mpr ⟨_, hTmem, rfl⟩
          exact hdisj hint hinr

/-- C5 witness: the guarantees instantiated on `Tw` with region
`{B, B2}`, threshold 1, sample `B`. -/
theorem walker_confidence_bounds_witness :
    uniqueIds Tw ∧ (1 : ℚ) ≤ 1 ∧
      ((⟨"B", "X", 1, 0, 2⟩ : IntroRow).parent_confidence < 1 ∧
        (1 : ℚ) ≤ (⟨"B", "X", 1, 0, 2⟩ : IntroRow).intro_confidence ∧
        ((⟨"B", "X", 1, 0, 2⟩ : IntroRow).introduction_node = Tw.nid →
          (⟨"B", "X", 1, 0, 2⟩ : IntroRow).parent_confidence = 0) ∧
        ∃ pre a rest, rsearch Tw "B" = pre ++ a :: rest ∧
          (∀ x ∈ pre, (1 : ℚ) ≤ ancState Tw.nid (get_assignments Tw ["B", "B2"]) x) ∧
          ancState Tw.nid (get_assignments Tw ["B", "B2"]) a < 1 ∧
          (⟨"B", "X", 1, 0, 2⟩ : IntroRow).intro_confidence =
            (pre.map (ancState Tw.nid (get_assignments Tw ["B", "B2"]))).getLastD 1 ∧
          (⟨"B", "X", 1, 0, 2⟩ : IntroRow).parent_confidence =
            ancState Tw.nid (get_assignments Tw ["B", "B2"]) a) :=
  ⟨by unfold uniqueIds; decide, by decide,
   walker_confidence_bounds Tw (get_assignments Tw ["B", "B2"]) 1 "B" ⟨"B", "X", 1, 0, 2⟩
     (by unfold uniqueIds; decide) (by decide) (by decide)⟩

/-- `takeWhile` keeps an initial block of satisfied elements and stops
at the first failure. -/
theorem takeWhile_middle {α : Type} (p : α → Bool) (l₁ : List α) (x : α) (l₂ : List α)
    (h₁ : ∀ y ∈ l₁, p y = true) (hx : p x = false) :
    (l₁ ++ x :: l₂).takeWhile p = l₁ := by
  induction l₁ with
  | nil => simp [List.takeWhile_cons, hx]
  | cons z zs ih =>
    rw [List.cons_append, List.takeWhile_cons, h₁ z (List.mem_cons_self z zs)]
    simp only [if_true]
    rw [ih (fun y hy => h₁ y (List.mem_cons_of_mem z hy))]

/-- `find?` skips an initial block of failures and returns the first
success. -/
theorem find?_middle {α : Type} (p : α → Bool) (l₁ : List α) (x : α) (l₂ : List α)
    (h₁ : ∀ y ∈ l₁, p y = false) (hx : p x = true) :
    (l₁ ++ x :: l₂).find? p = some x := by
  induction l₁ with
  | nil =>
    rw [List.nil_append]
    exact List.find?_cons_of_pos _ hx
  | cons z zs ih =>
    rw [List.cons_append, List.find?_cons_of_neg _ (by simp [h₁ z (List.mem_cons_self z zs)])]
    exact ih (fun y hy => h₁ y (List.mem_cons_of_mem z hy))

/-- `getLastD` commutes with `map`. -/
theorem getLastD_map_getLastD {α β : Type} (f : α → β) (l : List α) (d : α) :
    (l.map f).getLastD (f d) = f (l.getLastD d) := by
  induction l generalizing d with
  | nil => rfl
  | cons x xs ih => rw [List.map_cons, List.getLastD_cons, List.getLastD_cons, ih]

/-- The default of `getLastD` is irrelevant on a nonempty list. -/
theorem getLastD_default_irrel {α : Type} (l : List α) (h : l ≠ []) (d₁ d₂ : α) :
    l.getLastD d₁ = l.getLastD d₂ := by
  cases l with
  | nil => exact absurd rfl h
  | cons x xs => rw [List.getLastD_cons, List.getLastD_cons]

/-- A nonempty list is its `dropLast` plus its `getLastD`. -/
theorem dropLast_append_getLastD {α : Type} (l : List α) (d : α) (h : l ≠ []) :
    l.dropLast ++ [l.getLastD d] = l := by
  induction l generalizing d with
  | nil => exact absurd rfl h
  | cons x xs ih =>
    cases xs with
    | nil => rfl
    | cons y ys =>
      rw [List.getLastD_cons, List.dropLast_cons₂, List.cons_append, ih x (by simp)]

/-- Root-ward traversal stays inside the tree. -/
theorem rsearch_subset_dfs (T : MTree) (s : String) (x : MTree) (h : x ∈ rsearch T s) :
    x ∈ dfs T := by
  unfold rsearch at h
  cases hfp : findPath s T with
  | none =>
    rw [hfp] at h
    cases h
  | some p =>
    rw [hfp, Option.getD_some, List.mem_reverse] at h
    exact (findPath_sublist s T p hfp).subset h

/-- The root identifier never occurs strictly before the emission node
on a root-ward traversal: the traversal ends at the root, whose
identifier is unique. -/
theorem root_nid_not_in_walk_prefix (T : MTree) (s : String) (hu : uniqueIds T)
    (pre : List MTree) (a : MTree) (rest : List MTree)
    (heq : rsearch T s = pre ++ a :: rest) : T.nid ∉ pre.map MTree.nid := by
  cases hfp : findPath s T with
  | none =>
    have : rsearch T s = [] := by unfold rsearch; rw [hfp]; rfl
    rw [this] at heq
    exact absurd heq.symm (by simp)
  | some p =>
    have hres : rsearch T s = p.reverse := by unfold rsearch; rw [hfp, Option.getD_some]
    obtain ⟨q, rfl⟩ := findPath_head s T p hfp
    have h2 : rsearch T s = q.reverse ++ [T] := by rw [hres, List.reverse_cons]
    have h4 : (a :: rest).getLastD a = T := by
      rw [← getLastD_append_cons pre a rest a, ← heq, h2, getLastD_append_cons]
      rfl
    have hTmem : T ∈ a :: rest := by
      rw [← h4]
      exact getLastD_mem_of_ne_nil _ _ (by simp)
    have hnodup : ((pre ++ a :: rest).map MTree.nid).Nodup :=
      heq ▸ rsearch_nids_nodup T s hu
    rw [List.map_append] at hnodup
    have hdisj := (List.nodup_append.mp hnodup).2.2
    intro hmem
    exact hdisj hmem (List.mem_map_of_mem _ hTmem)

/-- With unique identifiers, looking an in-tree node's identifier up in
the engine's map returns that node's computed confidence. -/
theorem find?_map_key (f : MTree → ℚ) :
    ∀ (L : List MTree), ((L.map MTree.nid).Nodup) → ∀ x ∈ L,
      ((L.map (fun n => (n.nid, f n))).find? (fun q => q.1 = x.nid)) = some (x.nid, f x) := by
  intro L
  induction L with
  | nil =>
    intro _ x hx
    cases hx
  | cons y ys ih =>
    intro hnd x hx
    rw [List.map_cons]
    by_cases hyx : y.nid = x.nid
    · rcases List.mem_cons.mp hx with rfl | hx'
      · exact List.find?_cons_of_pos _ (by simp)
      · exfalso
        rw [List.map_cons, List.nodup_cons] at hnd
        exact hnd.1 (hyx ▸ List.mem_map_of_mem MTree.nid hx')
    · rw [List.find?_cons_of_neg _ (by simpa using hyx)]
      rcases List.mem_cons.mp hx with rfl | hx'
      · exact absurd rfl hyx
      · exact ih (by rw [List.map_cons, List.nodup_cons] at hnd; exact hnd.2) x hx'

/-- Engine-map lookup of an in-tree identifier. -/
theorem lookupA_get_assignments (T : MTree) (sset : List String) (x : MTree)
    (hu : uniqueIds T) (hx : x ∈ dfs T) :
    lookupA (get_assignments T sset) x.nid = some (nodeAssign sset x) := by
  unfold lookupA get_assignments
  rw [find?_map_key (nodeAssign sset) (dfs T) hu x hx]
  rfl

/-- With unique identifiers, a node whose identifier names a leaf is
that leaf. -/
theorem node_is_leaf_of_nid_in_leaves (T : MTree) (x : MTree) (hu : uniqueIds T)
    (hx : x ∈ dfs T) (hl : x.nid ∈ leavesIds T) : isLeaf x = true := by
  unfold leavesIds at hl
  rcases List.mem_map.mp hl with ⟨y, hy, hynid⟩
  have hy' := List.mem_filter.mp hy
  have hxy : y = x :=
    List.inj_on_of_nodup_map hu (List.mem_filter.mp hy).1 hx hynid
  rw [← hxy]
  simpa using hy'.2

/-- C6 (amended): the emitted distance equals the mutation count along
the edges between the sample and the introduction node, plus the
introduction node's own incoming-edge mutation count except when the
introduction node is the root (whose incoming edge the walk never
adds).  Hypotheses: unique identifiers, `θ ≤ 1`, and the walked sample
is an in-region leaf of the tree (so the walk cannot stop on the sample
itself). -/
theorem walker_distance_decomposition (T : MTree) (sset : List String) (θ : ℚ) (s : String)
    (r : IntroRow) (hu : uniqueIds T) (hθ : θ ≤ 1)
    (hsl : s ∈ leavesIds T) (hss : s ∈ sset)
    (h : walkSample T (get_assignments T sset) θ s = some r) :
    r.distance = walkEdgeSum T s r.introduction_node +
      (if r.introduction_node = T.nid then 0
       else walkNodeMuts T s r.introduction_node) := by
  rcases walkGo_some_spec T.nid (get_assignments T sset) θ s (rsearch T s) s 1 0 r h with
    ⟨pre, a, rest, heq, hpre, hlt, hsam, hpc, hic, hd, hin⟩
  have hroot_nin : T.nid ∉ pre.map MTree.nid :=
    root_nid_not_in_walk_prefix T s hu pre a rest heq
  by_cases ha : a.nid = T.nid
  · have hintro : r.introduction_node = T.nid := by rw [hin, if_pos ha, ha]
    rw [hintro, if_pos rfl, Nat.add_zero]
    unfold walkEdgeSum
    rw [heq, takeWhile_middle _ pre a rest ?_ ?_]
    · rw [hd]
      omega
    · intro y hy
      have : y.nid ≠ T.nid := fun hc => hroot_nin (hc ▸ List.mem_map_of_mem MTree.nid hy)
      simpa using this
    · simpa using ha
  · by_cases hp : pre = []
    · exfalso
      rw [hp, List.nil_append] at heq
      have has : a.nid = s := rsearch_head_nid T s a rest heq
      have hadfs : a ∈ dfs T :=
        rsearch_subset_dfs T s a (by rw [heq]; exact List.mem_cons_self a rest)
      have haleaf : isLeaf a = true :=
        node_is_leaf_of_nid_in_leaves T a hu hadfs (has ▸ hsl)
      have hval : nodeAssign sset a = 1 := by
        rw [nodeAssign, if_pos haleaf, if_pos (has ▸ hss)]
      have hst : ancState T.nid (get_assignments T sset) a = 1 := by
        rw [ancState, if_neg ha]
        rw [lookupA0, lookupA_get_assignments T sset a hu hadfs, hval]
        rfl
      rw [hst] at hlt
      exact absurd (hlt.trans_le hθ) (lt_irrefl 1)
    · set g := pre.getLastD a with hgdef
      have hpredec : pre.dropLast ++ [g] = pre := dropLast_append_getLastD pre a hp
      have hgmem : g ∈ pre := getLastD_mem_of_ne_nil pre a hp
      have hintro : r.introduction_node = g.nid := by
        rw [hin, if_neg ha,
          getLastD_default_irrel (pre.map MTree.nid) (by simpa using hp) s (MTree.nid a),
          getLastD_map_getLastD]
      have hgne : g.nid ≠ T.nid := by
        intro hcontra
        exact hroot_nin (hcontra ▸ List.mem_map_of_mem MTree.nid hgmem)
      have hprend : (pre.map MTree.nid).Nodup := by
        have hall := rsearch_nids_nodup T s hu
        rw [heq, List.map_append] at hall
        exact (List.nodup_append.mp hall).1
      have hdl : ∀ y ∈ pre.dropLast, y.nid ≠ g.nid := by
        intro y hy hcon
        rw [← hpredec, List.map_append] at hprend
        have hdisj := (List.nodup_append.mp hprend).2.2
        exact hdisj (List.mem_map_of_mem _ hy) (by simp [hcon])
      rw [hintro, if_neg hgne]
      unfold walkEdgeSum walkNodeMuts
      rw [heq, ← hpredec, List.append_assoc, List.singleton_append]
      rw [takeWhile_middle _ _ g _ ?_ ?_]
      rw [find?_middle _ _ g _ ?_ ?_]
      · rw [← hpredec] at hd
        rw [hd]
        simp
      · intro y hy
        simpa using hdl y hy
      · simp
      · intro y hy
        simpa using hdl y hy
      · simp

/-- C6 witness: the decomposition instantiated on `Tw` (region
`{B, B2}`, threshold 1, sample `B`): the emitted distance 2 is the one
path edge between `B` and `X` plus `X`'s own mutation. -/
theorem walker_distance_decomposition_witness :
    uniqueIds Tw ∧ (1 : ℚ) ≤ 1 ∧ "B" ∈ leavesIds Tw ∧ "B" ∈ ["B", "B2"] ∧
      (⟨"B", "X", 1, 0, 2⟩ : IntroRow).distance =
        walkEdgeSum Tw "B" (⟨"B", "X", 1, 0, 2⟩ : IntroRow).introduction_node +
          (if (⟨"B", "X", 1, 0, 2⟩ : IntroRow).introduction_node = Tw.nid then 0
           else walkNodeMuts Tw "B" (⟨"B", "X", 1, 0, 2⟩ : IntroRow).introduction_node) :=
  ⟨by unfold uniqueIds; decide, by decide, by decide, by decide,
   walker_distance_decomposition Tw ["B", "B2"] 1 "B" ⟨"B", "X", 1, 0, 2⟩
     (by unfold uniqueIds; decide) (by decide) (by decide) (by decide) (by decide)⟩

/-- C8 counterexample: with `leaf_count = 2` in-subtree leaves of which
`sample_count = 0` are IN, the source's acceptance test accepts the draw
0, i.e. exactly 1 of the 2 possible draws — not `sample_count = 0` of
them as the claim states (the leaf child is assigned IN with probability
1/2 instead of 0). -/
theorem permuteAccept_claim_counterexample :
    ((List.range 2).filter (fun r => permuteAccept 0 r)).length = 1 ∧ (1 : Nat) ≠ 0 := by
  decide

/-- C8 (amended): the acceptance test applied to the uniform draw from
`[0, leaf_count)` accepts exactly `min (sample_count + 1) leaf_count` of
the `leaf_count` possible values, i.e. a direct leaf child is assigned
IN with probability `(sample_count + 1) / leaf_count` (capped at 1), an
off-by-one from the claimed `sample_count / leaf_count`. -/
theorem permuteAccept_count (sc lc : Nat) :
    ((List.range lc).filter (fun r => permuteAccept sc r)).length = min (sc + 1) lc := by
  induction lc with
  | zero => simp
  | succ n ih =>
    rw [List.range_succ, List.filter_append, List.length_append, ih]
    by_cases h : n ≤ sc
    · have hd : (List.filter (fun r => permuteAccept sc r) [n]) = [n] := by
        simp [permuteAccept, h]
      rw [hd]
      simp only [List.length_cons, List.length_nil]
      omega
    · have hd : (List.filter (fun r => permuteAccept sc r) [n]) = [] := by
        simp only [permuteAccept, List.filter_eq_nil_iff, List.mem_singleton,
          decide_eq_true_eq]
        omega
      rw [hd]
      simp only [List.length_nil]
      omega
